import Mathlib

/-!
Verification development for the ColoVision CRC-detection repository.

The definitions below are shallow embeddings of the TypeScript source:
coverage percentages and the float quantities of the heatmap code are
modelled as exact rationals (the decimal literals of the source are taken
at face value: 0.1 is 1/10, 1.414 is 1414/1000, and so on), pixel channel
values are natural numbers, and the in-place loops of the source become
folds over the exact index sequences the loops traverse.
-/

namespace Colovision

/-! ### Risk classification

Embeds the two `riskLevel` conditional expressions of
`DetectionPage.tsx`: one inside `processImages` (real-API path) and one
inside `simulateModelInference` (mock path). Both are transcribed
separately, exactly as each appears in the source.
-/

/-- Risk classification of `DetectionPage.processImages` (real-API path):
`cancerPercentage > 2.0 ? 'High Risk' : cancerPercentage > 0.5 ? 'Medium Risk'
: cancerPercentage > 0.1 ? 'Low Risk' : 'Safe'`. -/
def processImagesRiskLevel (cancerPercentage : ℚ) : String :=
  if cancerPercentage > 2 then "High Risk"
  else if cancerPercentage > 1/2 then "Medium Risk"
  else if cancerPercentage > 1/10 then "Low Risk"
  else "Safe"

/-- Risk classification of `simulateModelInference` (mock path), transcribed
from its own occurrence in the source. -/
def simulateRiskLevel (cancerPercentage : ℚ) : String :=
  if cancerPercentage > 2 then "High Risk"
  else if cancerPercentage > 1/2 then "Medium Risk"
  else if cancerPercentage > 1/10 then "Low Risk"
  else "Safe"

/-- Rank of a risk tier in the order Safe < Low < Medium < High. -/
def tierRank (s : String) : ℕ :=
  if s = "High Risk" then 3
  else if s = "Medium Risk" then 2
  else if s = "Low Risk" then 1
  else 0

/-! ### Heatmap generation: `createHeatmapFromOverlay`

The overlay image is a map from pixel coordinates to RGB values. The
distance transform of the source fills a `width*height` buffer with 80,
zeroes the polyp-marked pixels, then runs a forward sweep over
`y = 1..height-1, x = 1..width-1` (reading the already-updated above/left
neighbours) and a backward sweep over `y = height-2..0, x = width-2..0`
(reading the already-updated below/right neighbours). The sweeps are
embedded as folds over exactly those index sequences, updating a map
`Nat → Nat → ℚ` in place at one index per step.
-/

/-- RGB value of one pixel of an image. -/
structure RGB where
  r : ℕ
  g : ℕ
  b : ℕ
deriving DecidableEq

/-- Polyp test on an overlay pixel, from the source:
`r > 100 && (r > g + 50) && (r > b + 50)`. -/
def isPolypRegion (p : RGB) : Bool :=
  decide (100 < p.r) && decide (p.g + 50 < p.r) && decide (p.b + 50 < p.r)

/-- The `maxDist` constant of the source: the 80-unit clamp radius. -/
def maxDist : ℚ := 80

/-- Diagonal step cost of the source, the literal `1.414`. -/
def diagCost : ℚ := 1414/1000

/-- Initial distance buffer: polyp-marked in-bounds pixels are 0, everything
else holds `maxDist` (the source fills the buffer with `maxDist` and then
zeroes the marked pixels). -/
def initDist (ov : ℕ → ℕ → RGB) (w h : ℕ) : ℕ → ℕ → ℚ :=
  fun x y => if x < w ∧ y < h ∧ isPolypRegion (ov x y) = true then 0 else maxDist

/-- One forward-sweep update at index `p`: take the minimum of the current
value and the above/left/above-left neighbours plus their step costs. -/
def fwdStep (m : ℕ → ℕ → ℚ) (p : ℕ × ℕ) : ℕ → ℕ → ℚ :=
  fun x y =>
    if x = p.1 ∧ y = p.2 then
      min (m x y) (min (m x (y - 1) + 1) (min (m (x - 1) y + 1) (m (x - 1) (y - 1) + diagCost)))
    else m x y

/-- One backward-sweep update at index `p`: take the minimum of the current
value and the below/right/below-right neighbours plus their step costs. -/
def bwdStep (m : ℕ → ℕ → ℚ) (p : ℕ × ℕ) : ℕ → ℕ → ℚ :=
  fun x y =>
    if x = p.1 ∧ y = p.2 then
      min (m x y) (min (m x (y + 1) + 1) (min (m (x + 1) y + 1) (m (x + 1) (y + 1) + diagCost)))
    else m x y

/-- Index order of the forward sweep: `for y in 1..h-1: for x in 1..w-1`. -/
def fwdOrder (w h : ℕ) : List (ℕ × ℕ) :=
  ((List.range (h - 1)).map (· + 1)).flatMap fun y =>
    ((List.range (w - 1)).map (· + 1)).map fun x => (x, y)

/-- Index order of the backward sweep: `for y in h-2..0: for x in w-2..0`. -/
def bwdOrder (w h : ℕ) : List (ℕ × ℕ) :=
  ((List.range (h - 1)).reverse).flatMap fun y =>
    ((List.range (w - 1)).reverse).map fun x => (x, y)

/-- The distance map after both sweeps of `createHeatmapFromOverlay`. -/
def distanceMap (ov : ℕ → ℕ → RGB) (w h : ℕ) : ℕ → ℕ → ℚ :=
  (bwdOrder w h).foldl bwdStep ((fwdOrder w h).foldl fwdStep (initDist ov w h))

/-- Chamfer paths inside a `w × h` grid: `ReachCost seed w h x y c` holds when
some path of axis steps (cost 1) and diagonal steps (cost `diagCost`) leads
from a seed pixel to `(x, y)` with total cost `c`. -/
inductive ReachCost (seed : ℕ → ℕ → Bool) (w h : ℕ) : ℕ → ℕ → ℚ → Prop where
  | base (x y : ℕ) : x < w → y < h → seed x y = true → ReachCost seed w h x y 0
  | axial (x y x' y' : ℕ) (c : ℚ) :
      ReachCost seed w h x y c → x' < w → y' < h →
      ((x' = x + 1 ∧ y' = y) ∨ (x = x' + 1 ∧ y' = y) ∨
        (x' = x ∧ y' = y + 1) ∨ (x' = x ∧ y = y' + 1)) →
      ReachCost seed w h x' y' (c + 1)
  | diag (x y x' y' : ℕ) (c : ℚ) :
      ReachCost seed w h x y c → x' < w → y' < h →
      ((x' = x + 1 ∨ x = x' + 1) ∧ (y' = y + 1 ∨ y = y' + 1)) →
      ReachCost seed w h x' y' (c + diagCost)

/-- Modelled from the spec: the claimed value of the distance transform, a
per-pixel minimum chamfer-path distance (axis step cost 1, diagonal step
cost `diagCost`) to the nearest seed pixel, clamped at `maxDist`. It is
computed by `w * h` rounds of relaxation over the full 8-neighbourhood
starting from 0 at seeds and `maxDist` elsewhere; minimal chamfer paths
visit no pixel twice, so `w * h` rounds reach the fixpoint, and the
`maxDist` start value at non-seed pixels realizes the clamp. -/
def relaxValue (w h : ℕ) (m : ℕ → ℕ → ℚ) (x y : ℕ) : ℚ :=
  let cand : List (ℕ × ℕ × ℚ) :=
    [(x + 1, y, 1), (x, y + 1, 1), (x - 1, y, 1), (x, y - 1, 1),
      (x + 1, y + 1, diagCost), (x + 1, y - 1, diagCost),
      (x - 1, y + 1, diagCost), (x - 1, y - 1, diagCost)]
  cand.foldl
    (fun acc c => if c.1 < w ∧ c.2.1 < h then min acc (m c.1 c.2.1 + c.2.2) else acc)
    (m x y)

/-- Iterated synchronous relaxation rounds for `chamferClamped`. -/
def chamferIter (w h : ℕ) (m : ℕ → ℕ → ℚ) : ℕ → (ℕ → ℕ → ℚ)
  | 0 => m
  | k + 1 => fun x y => relaxValue w h (chamferIter w h m k) x y

/-- Modelled from the spec: minimum chamfer-path distance to the nearest
seed pixel, clamped to `maxDist` (see `relaxValue` for the construction). -/
def chamferClamped (seed : ℕ → ℕ → Bool) (w h : ℕ) : ℕ → ℕ → ℚ :=
  chamferIter w h
    (fun x y => if x < w ∧ y < h ∧ seed x y = true then 0 else maxDist) (w * h)

/-! ### Heatmap generation: gradient and blending -/

/-- Normalized distance of the source:
`Math.min(distance / maxDist, 1.0)`. -/
def normDist (d : ℚ) : ℚ := min (d / maxDist) 1

/-- One sample of the four-band gradient: RGB channels (the source applies
`Math.floor` where it does) and the blending alpha. -/
structure GradSample where
  r : ℤ
  g : ℤ
  b : ℤ
  alpha : ℚ
deriving DecidableEq

/-- The four-band red → orange → yellow → green gradient of
`createHeatmapFromOverlay`, transcribed branch by branch from the source. -/
def gradColor (normalizedDist : ℚ) : GradSample :=
  if normalizedDist < 1/4 then
    let t := normalizedDist / (1/4)
    ⟨255, ⌊t * 100⌋, 0, 7/10 - t * (2/10)⟩
  else if normalizedDist < 1/2 then
    let t := (normalizedDist - 1/4) / (1/4)
    ⟨255, ⌊100 + t * 155⌋, 0, 1/2 - t * (15/100)⟩
  else if normalizedDist < 3/4 then
    let t := (normalizedDist - 1/2) / (1/4)
    ⟨⌊255 - t * 155⌋, 255, ⌊t * 100⌋, 35/100 - t * (15/100)⟩
  else
    let t := (normalizedDist - 3/4) / (1/4)
    ⟨⌊(100 : ℚ) - t * 100⌋, 255, ⌊100 + t * 55⌋, 2/10 - t * (15/100)⟩

/-- Blending alpha as a function of the normalized distance. -/
def alphaAt (normalizedDist : ℚ) : ℚ := (gradColor normalizedDist).alpha

/-- Per-channel alpha blend of the source:
`Math.floor(base * (1 - alpha) + grad * alpha)`. -/
def blendChannel (base : ℕ) (grad : ℤ) (alpha : ℚ) : ℤ :=
  ⌊(base : ℚ) * (1 - alpha) + (grad : ℚ) * alpha⌋

/-- One pixel of the final heatmap: the gradient sample at the normalized
transform distance, alpha-blended over the original image pixel. -/
def heatmapPixel (ov base : ℕ → ℕ → RGB) (w h x y : ℕ) : ℤ × ℤ × ℤ :=
  let s := gradColor (normDist (distanceMap ov w h x y))
  let p := base x y
  (blendChannel p.r s.r s.alpha, blendChannel p.g s.g s.alpha, blendChannel p.b s.b s.alpha)

/-- Concrete 2 × 2 overlay with a single polyp-marked pixel at the origin,
used to evaluate the distance transform at a corner seed. -/
def cexOverlay : ℕ → ℕ → RGB :=
  fun x y => if x = 0 ∧ y = 0 then ⟨255, 0, 0⟩ else ⟨0, 0, 0⟩

/-- Seed predicate induced by `cexOverlay`. -/
def cexSeed : ℕ → ℕ → Bool := fun x y => isPolypRegion (cexOverlay x y)

/-! ### Batch processing loop of `DetectionPage.processImages`

The loop takes the images whose status is `ready`, and for each one in
order sets its status to `processing`, runs the per-image pipeline inside
a `try`, pushes the result on success, and on a caught error sets that
image status to `error` and continues with the next image. The per-image
pipeline (API call, heatmap, recommendations) is abstracted as a
function returning `Except`: `Except.error` is a thrown error reaching
the `catch` block. -/

/-- Status of an uploaded image, from the `UploadedImage` interface. -/
inductive ImgStatus where
  | uploading
  | ready
  | processing
  | error
deriving DecidableEq

/-- An uploaded image: its identifier and current status (the fields the
batch loop reads and writes). -/
structure UImage where
  id : ℕ
  status : ImgStatus
deriving DecidableEq

/-- The `setImages(prev => prev.map(img => img.id === image.id ? ... ))`
update: set the status of every image with the given id. -/
def setStatus (l : List UImage) (i : ℕ) (s : ImgStatus) : List UImage :=
  l.map fun im => if im.id = i then { im with status := s } else im

/-- `images.filter(img => img.status === 'ready')`. -/
def readyImages (l : List UImage) : List UImage :=
  l.filter fun im => decide (im.status = ImgStatus.ready)

/-- One iteration of the batch loop body for image `im`. -/
def processOne {ρ : Type*} (stepF : UImage → Except String ρ)
    (acc : List ρ × List UImage) (im : UImage) : List ρ × List UImage :=
  let updated := setStatus acc.2 im.id ImgStatus.processing
  match stepF im with
  | Except.ok r => (acc.1 ++ [r], updated)
  | Except.error _ => (acc.1, setStatus updated im.id ImgStatus.error)

/-- The batch loop of `processImages`: fold the loop body over the ready
images, starting from an empty results array and the current image list.
Returns the pushed results and the final image list. -/
def processImages {ρ : Type*} (stepF : UImage → Except String ρ)
    (images : List UImage) : List ρ × List UImage :=
  (readyImages images).foldl (processOne stepF) ([], images)

/-- Status of the image with identifier `i` in an image list. -/
def statusOf (l : List UImage) (i : ℕ) : Option ImgStatus :=
  (l.find? fun im => decide (im.id = i)).map UImage.status

/-! ### `TwoFactorService.verifyCode` -/

/-- Return value of `verifyCode`. -/
structure TwoFactorVerification where
  isValid : Bool
  remainingAttempts : Option ℕ
deriving DecidableEq

/-- The test `/^\x5cd{6}$/.test(code)`: exactly six decimal digits. -/
def regexSixDigits (code : String) : Bool :=
  code.length == 6 && code.toList.all Char.isDigit

/-- The test `/^\x5cd+$/.test(code)`: one or more decimal digits. -/
def regexOneOrMoreDigits (code : String) : Bool :=
  decide (1 ≤ code.length) && code.toList.all Char.isDigit

/-- The hard-coded demo list `['123456', '000000']`. -/
def validCodes : List String := ["123456", "000000"]

/-- `TwoFactorService.verifyCode`, minus the artificial delay and the
`complete2FASetup` local-storage side effect, neither of which touches the
returned verification value. -/
def verifyCode (email code : String) (isSetup : Bool) : TwoFactorVerification :=
  if !regexSixDigits code then
    { isValid := false, remainingAttempts := some 2 }
  else
    let isValidFormat := code.length == 6 && regexOneOrMoreDigits code
    let valid := validCodes.contains code || isValidFormat
    { isValid := valid, remainingAttempts := if valid then none else some 1 }

/-! ### `SegmentationService.segmentImage`

The fetch of the single-image endpoint is modelled by its observable
outcome: a network-level rejection, or a response with its `ok` flag,
status text and (when parsing is attempted) the parsed body or a parse
error. -/

/-- Status field of a segmentation result. -/
inductive ResStatus where
  | success
  | error
deriving DecidableEq

/-- The fields of the `SegmentationResult` interface that the claims
inspect. -/
structure SegmentationResult where
  filename : String
  status : ResStatus
  overlay : Option String := none
  original : Option String := none
  gradcam : Option String := none
  error : Option String := none
deriving DecidableEq

/-- The `SegmentationResponse` interface. -/
structure SegmentationResponse where
  status : String
  results : List SegmentationResult
  total_processed : ℕ

/-- Observable outcome of the `fetch` call inside `segmentImage`. -/
inductive FetchOutcome where
  | networkError (msg : String)
  | response (ok : Bool) (statusText : String)
      (body : Except String SegmentationResponse)

/-- The error value built in the `catch` block of `segmentImage`. -/
def catchResult (filename msg : String) : SegmentationResult :=
  { filename := filename, status := ResStatus.error, error := some msg }

/-- `SegmentationService.segmentImage` as a function of the file name and
the fetch outcome: non-ok responses, parse failures and empty result
arrays are thrown and then caught into an error result; otherwise the
first element of `results` is returned. -/
def segmentImage (filename : String) (outcome : FetchOutcome) : SegmentationResult :=
  match outcome with
  | FetchOutcome.networkError msg => catchResult filename msg
  | FetchOutcome.response ok statusText body =>
    if ok then
      match body with
      | Except.error msg => catchResult filename msg
      | Except.ok data =>
        match data.results with
        | r :: _ => r
        | [] => catchResult filename "No results returned from API"
    else catchResult filename ("API request failed: " ++ statusText)

/-- The successful case of a fetch outcome: an ok response whose parsed
body has a nonempty `results` array, yielding its first element. -/
def successBody (outcome : FetchOutcome) : Option SegmentationResult :=
  match outcome with
  | FetchOutcome.response true _ (Except.ok data) => data.results.head?
  | _ => none

/-- Concrete batch of three ready images, used to evaluate the batch loop
on the partial-failure scenario. -/
def wImgs : List UImage :=
  [⟨0, ImgStatus.ready⟩, ⟨1, ImgStatus.ready⟩, ⟨2, ImgStatus.ready⟩]

/-- Concrete per-image pipeline for the scenario: the second image (id 1)
throws, the others succeed. -/
def wStep : UImage → Except String ℕ :=
  fun im => if im.id = 1 then Except.error "decode failure" else Except.ok im.id

/-! ### Invariants of the two-sweep distance transform -/

/-- Invariant carried through both sweeps: every in-bounds entry is
nonnegative, at most `maxDist`, zero on polyp-marked pixels, and is either
still the untouched `maxDist` or the cost of an actual chamfer path from a
polyp-marked pixel. -/
def DistInv (ov : ℕ → ℕ → RGB) (w h : ℕ) (m : ℕ → ℕ → ℚ) : Prop :=
  ∀ x y, x < w → y < h →
    0 ≤ m x y ∧ m x y ≤ 80 ∧
    (isPolypRegion (ov x y) = true → m x y = 0) ∧
    (m x y = 80 ∨ ReachCost (fun a b => isPolypRegion (ov a b)) w h x y (m x y))

theorem foldl_inv {α β : Type*} {P : α → Prop} (f : α → β → α) (l : List β)
    (hstep : ∀ a b, b ∈ l → P a → P (f a b)) (a : α) (ha : P a) :
    P (l.foldl f a) := by
  induction l generalizing a with
  | nil => exact ha
  | cons b t ih =>
    exact ih (fun a' b' hb' => hstep a' b' (List.mem_cons_of_mem _ hb'))
      (f a b) (hstep a b (List.mem_cons_self _ _) ha)

theorem mem_fwdOrder {w h px py : ℕ} (hp : (px, py) ∈ fwdOrder w h) :
    1 ≤ px ∧ px < w ∧ 1 ≤ py ∧ py < h := by
  simp only [fwdOrder, List.mem_flatMap, List.mem_map, List.mem_range] at hp
  obtain ⟨y, ⟨y', hy', rfl⟩, x, ⟨x', hx', rfl⟩, hpair⟩ := hp
  obtain ⟨rfl, rfl⟩ := Prod.mk.injEq .. ▸ hpair
  omega

theorem mem_bwdOrder {w h px py : ℕ} (hp : (px, py) ∈ bwdOrder w h) :
    px + 1 < w ∧ py + 1 < h := by
  simp only [bwdOrder, List.mem_flatMap, List.mem_map, List.mem_reverse,
    List.mem_range] at hp
  obtain ⟨y, hy, x, hx, hpair⟩ := hp
  obtain ⟨rfl, rfl⟩ := Prod.mk.injEq .. ▸ hpair
  omega

theorem min4_cases (a b c d : ℚ) :
    min a (min b (min c d)) = a ∨ min a (min b (min c d)) = b ∨
      min a (min b (min c d)) = c ∨ min a (min b (min c d)) = d := by
  rcases min_cases a (min b (min c d)) with ⟨h1, _⟩ | ⟨h1, _⟩
  · exact Or.inl h1
  · rcases min_cases b (min c d) with ⟨h2, _⟩ | ⟨h2, _⟩
    · exact Or.inr (Or.inl (h1.trans h2))
    · rcases min_cases c d with ⟨h3, _⟩ | ⟨h3, _⟩
      · exact Or.inr (Or.inr (Or.inl ((h1.trans h2).trans h3)))
      · exact Or.inr (Or.inr (Or.inr ((h1.trans h2).trans h3)))

theorem diagCost_pos : 0 < diagCost := by norm_num [diagCost]

theorem initDist_inv (ov : ℕ → ℕ → RGB) (w h : ℕ) :
    DistInv ov w h (initDist ov w h) := by
  intro x y hx hy
  by_cases hs : isPolypRegion (ov x y) = true
  · have hval : initDist ov w h x y = 0 := by
      simp [initDist, hx, hy, hs]
    refine ⟨by rw [hval], by rw [hval]; norm_num, fun _ => hval, Or.inr ?_⟩
    rw [hval]
    exact ReachCost.base x y hx hy hs
  · have hval : initDist ov w h x y = 80 := by
      simp only [initDist, maxDist, ite_eq_right_iff]
      intro hcon
      exact absurd hcon.2.2 hs
    exact ⟨by rw [hval]; norm_num, by rw [hval], fun hc => absurd hc hs,
      Or.inl hval⟩

theorem fwdStep_inv {ov : ℕ → ℕ → RGB} {w h : ℕ} {m : ℕ → ℕ → ℚ} {px py : ℕ}
    (hp : (px, py) ∈ fwdOrder w h) (hm : DistInv ov w h m) :
    DistInv ov w h (fwdStep m (px, py)) := by
  obtain ⟨hx1, hxw, hy1, hyh⟩ := mem_fwdOrder hp
  intro x y hx hy
  by_cases hxy : x = px ∧ y = py
  · obtain ⟨rfl, rfl⟩ := hxy
    have hstep : fwdStep m (x, y) x y =
        min (m x y) (min (m x (y - 1) + 1)
          (min (m (x - 1) y + 1) (m (x - 1) (y - 1) + diagCost))) := by
      simp [fwdStep]
    have hA := hm x y hx hy
    have hB := hm x (y - 1) hx (by omega)
    have hC := hm (x - 1) y (by omega) hy
    have hD := hm (x - 1) (y - 1) (by omega) (by omega)
    have hle : fwdStep m (x, y) x y ≤ m x y := by rw [hstep]; exact min_le_left _ _
    have hnonneg : 0 ≤ fwdStep m (x, y) x y := by
      rw [hstep]
      exact le_min hA.1 (le_min (by linarith [hB.1])
        (le_min (by linarith [hC.1]) (by linarith [hD.1, diagCost_pos])))
    refine ⟨hnonneg, hle.trans hA.2.1, fun hs => ?_, ?_⟩
    · have hA0 := hA.2.2.1 hs
      exact le_antisymm (hA0 ▸ hle) hnonneg
    · rcases min4_cases (m x y) (m x (y - 1) + 1) (m (x - 1) y + 1)
          (m (x - 1) (y - 1) + diagCost) with hval | hval | hval | hval
      all_goals have hv := hstep.trans hval
      · rcases hA.2.2.2 with h80 | hr
        · exact Or.inl (hv.trans h80)
        · rw [hv]; exact Or.inr hr
      · rcases hB.2.2.2 with h80 | hr
        · exfalso; linarith [hA.2.1]
        · rw [hv]
          exact Or.inr (ReachCost.axial x (y - 1) x y _ hr hx hy
            (Or.inr (Or.inr (Or.inl ⟨rfl, by omega⟩))))
      · rcases hC.2.2.2 with h80 | hr
        · exfalso; linarith [hA.2.1]
        · rw [hv]
          exact Or.inr (ReachCost.axial (x - 1) y x y _ hr hx hy
            (Or.inl ⟨by omega, rfl⟩))
      · rcases hD.2.2.2 with h80 | hr
        · exfalso; have := diagCost_pos; linarith [hA.2.1]
        · rw [hv]
          exact Or.inr (ReachCost.diag (x - 1) (y - 1) x y _ hr hx hy
            ⟨Or.inl (by omega), Or.inl (by omega)⟩)
  · have hstep : fwdStep m (px, py) x y = m x y := by simp [fwdStep, hxy]
    rw [hstep]
    exact hm x y hx hy

theorem bwdStep_inv {ov : ℕ → ℕ → RGB} {w h : ℕ} {m : ℕ → ℕ → ℚ} {px py : ℕ}
    (hp : (px, py) ∈ bwdOrder w h) (hm : DistInv ov w h m) :
    DistInv ov w h (bwdStep m (px, py)) := by
  obtain ⟨hxw, hyh⟩ := mem_bwdOrder hp
  intro x y hx hy
  by_cases hxy : x = px ∧ y = py
  · obtain ⟨rfl, rfl⟩ := hxy
    have hstep : bwdStep m (x, y) x y =
        min (m x y) (min (m x (y + 1) + 1)
          (min (m (x + 1) y + 1) (m (x + 1) (y + 1) + diagCost))) := by
      simp [bwdStep]
    have hA := hm x y hx hy
    have hB := hm x (y + 1) hx hyh
    have hC := hm (x + 1) y hxw hy
    have hD := hm (x + 1) (y + 1) hxw hyh
    have hle : bwdStep m (x, y) x y ≤ m x y := by rw [hstep]; exact min_le_left _ _
    have hnonneg : 0 ≤ bwdStep m (x, y) x y := by
      rw [hstep]
      exact le_min hA.1 (le_min (by linarith [hB.1])
        (le_min (by linarith [hC.1]) (by linarith [hD.1, diagCost_pos])))
    refine ⟨hnonneg, hle.trans hA.2.1, fun hs => ?_, ?_⟩
    · have hA0 := hA.2.2.1 hs
      exact le_antisymm (hA0 ▸ hle) hnonneg
    · rcases min4_cases (m x y) (m x (y + 1) + 1) (m (x + 1) y + 1)
          (m (x + 1) (y + 1) + diagCost) with hval | hval | hval | hval
      all_goals have hv := hstep.trans hval
      · rcases hA.2.2.2 with h80 | hr
        · exact Or.inl (hv.trans h80)
        · rw [hv]; exact Or.inr hr
      · rcases hB.2.2.2 with h80 | hr
        · exfalso; linarith [hA.2.1]
        · rw [hv]
          exact Or.inr (ReachCost.axial x (y + 1) x y _ hr hx hy
            (Or.inr (Or.inr (Or.inr ⟨rfl, rfl⟩))))
      · rcases hC.2.2.2 with h80 | hr
        · exfalso; linarith [hA.2.1]
        · rw [hv]
          exact Or.inr (ReachCost.axial (x + 1) y x y _ hr hx hy
            (Or.inr (Or.inl ⟨rfl, rfl⟩)))
      · rcases hD.2.2.2 with h80 | hr
        · exfalso; have := diagCost_pos; linarith [hA.2.1]
        · rw [hv]
          exact Or.inr (ReachCost.diag (x + 1) (y + 1) x y _ hr hx hy
            ⟨Or.inr rfl, Or.inr rfl⟩)
  · have hstep : bwdStep m (px, py) x y = m x y := by simp [bwdStep, hxy]
    rw [hstep]
    exact hm x y hx hy

theorem distanceMap_inv (ov : ℕ → ℕ → RGB) (w h : ℕ) :
    DistInv ov w h (distanceMap ov w h) := by
  unfold distanceMap
  refine foldl_inv bwdStep _ ?_ _ ?_
  · rintro m ⟨px, py⟩ hp hm
    exact bwdStep_inv hp hm
  refine foldl_inv fwdStep _ ?_ _ (initDist_inv ov w h)
  rintro m ⟨px, py⟩ hp hm
  exact fwdStep_inv hp hm

theorem reach_has_seed {seed : ℕ → ℕ → Bool} {w h x y : ℕ} {c : ℚ}
    (hr : ReachCost seed w h x y c) :
    ∃ a b, a < w ∧ b < h ∧ seed a b = true := by
  induction hr with
  | base x y hx hy hs => exact ⟨x, y, hx, hy, hs⟩
  | axial _ _ _ _ _ _ _ _ _ ih => exact ih
  | diag _ _ _ _ _ _ _ _ _ ih => exact ih

/-! ### Claim theorems -/

/-- C2 (amended): after the forward and backward sweeps, every in-bounds
entry of the distance map lies in [0, 80], polyp-marked pixels hold 0,
every entry is either the untouched clamp value 80 or the exact cost of
some chamfer path (axis step cost 1, diagonal step cost 1.414) from a
polyp-marked pixel — hence an over-approximation of the clamped minimum
chamfer-path distance — and when no polyp-marked pixel exists every entry
equals 80. -/
theorem distanceMap_overapprox (ov : ℕ → ℕ → RGB) (w h x y : ℕ)
    (hx : x < w) (hy : y < h) :
    0 ≤ distanceMap ov w h x y ∧ distanceMap ov w h x y ≤ 80 ∧
    (isPolypRegion (ov x y) = true → distanceMap ov w h x y = 0) ∧
    (distanceMap ov w h x y = 80 ∨
      ReachCost (fun a b => isPolypRegion (ov a b)) w h x y
        (distanceMap ov w h x y)) ∧
    ((∀ a b, a < w → b < h → isPolypRegion (ov a b) = false) →
      distanceMap ov w h x y = 80) := by
  have hInv := distanceMap_inv ov w h x y hx hy
  refine ⟨hInv.1, hInv.2.1, hInv.2.2.1, hInv.2.2.2, fun hns => ?_⟩
  rcases hInv.2.2.2 with h80 | hr
  · exact h80
  · obtain ⟨a, b, ha, hb, hseed⟩ := reach_has_seed hr
    rw [hns a b ha hb] at hseed
    simp at hseed

theorem distanceMap_overapprox_witness :
    0 ≤ distanceMap cexOverlay 2 2 1 1 ∧ distanceMap cexOverlay 2 2 1 1 ≤ 80 ∧
    (isPolypRegion (cexOverlay 1 1) = true → distanceMap cexOverlay 2 2 1 1 = 0) ∧
    (distanceMap cexOverlay 2 2 1 1 = 80 ∨
      ReachCost (fun a b => isPolypRegion (cexOverlay a b)) 2 2 1 1
        (distanceMap cexOverlay 2 2 1 1)) ∧
    ((∀ a b, a < 2 → b < 2 → isPolypRegion (cexOverlay a b) = false) →
      distanceMap cexOverlay 2 2 1 1 = 80) :=
  distanceMap_overapprox cexOverlay 2 2 1 1 (by decide) (by decide)

set_option maxRecDepth 100000 in
/-- C2 (counterexample): in the 2 × 2 overlay whose only polyp-marked pixel
is the origin, the pixel (1, 0) is axially adjacent to the seed, so its
minimum chamfer-path distance is 1 (and so is its clamp to 80), yet the two
sweeps never touch row 0 of the forward sweep range nor column 1 of the
backward sweep range, leaving the entry at 80: the computed entry differs
from the clamped minimum chamfer-path distance. -/
theorem distanceMap_not_chamfer :
    distanceMap cexOverlay 2 2 1 0 = 80 ∧
    ReachCost cexSeed 2 2 1 0 1 ∧
    chamferClamped cexSeed 2 2 1 0 = 1 ∧
    distanceMap cexOverlay 2 2 1 0 ≠ chamferClamped cexSeed 2 2 1 0 := by
  have h80 : distanceMap cexOverlay 2 2 1 0 = 80 := by with_unfolding_all rfl
  have hch : chamferClamped cexSeed 2 2 1 0 = 1 := by with_unfolding_all rfl
  refine ⟨h80, ?_, hch, by rw [h80, hch]; norm_num⟩
  have h0 : ReachCost cexSeed 2 2 0 0 0 :=
    ReachCost.base 0 0 (by decide) (by decide) (by decide)
  simpa using ReachCost.axial 0 0 1 0 0 h0 (by decide) (by decide)
    (Or.inl ⟨rfl, rfl⟩)

/-- C1: the risk classification realizes exactly the tiers of the spec
table: High iff coverage > 2.0, Medium iff 0.5 < coverage ≤ 2.0, Low iff
0.1 < coverage ≤ 0.5, Safe iff coverage ≤ 0.1, and each boundary value
falls into the lower bucket. -/
theorem riskLevel_tiers :
    (∀ c : ℚ, processImagesRiskLevel c = "High Risk" ↔ 2 < c) ∧
    (∀ c : ℚ, processImagesRiskLevel c = "Medium Risk" ↔ 1/2 < c ∧ c ≤ 2) ∧
    (∀ c : ℚ, processImagesRiskLevel c = "Low Risk" ↔ 1/10 < c ∧ c ≤ 1/2) ∧
    (∀ c : ℚ, processImagesRiskLevel c = "Safe" ↔ c ≤ 1/10) ∧
    processImagesRiskLevel 2 = "Medium Risk" ∧
    processImagesRiskLevel (1/2) = "Low Risk" ∧
    processImagesRiskLevel (1/10) = "Safe" := by
  have hHM : ("High Risk" : String) ≠ "Medium Risk" := by decide
  have hHL : ("High Risk" : String) ≠ "Low Risk" := by decide
  have hHS : ("High Risk" : String) ≠ "Safe" := by decide
  have hML : ("Medium Risk" : String) ≠ "Low Risk" := by decide
  have hMS : ("Medium Risk" : String) ≠ "Safe" := by decide
  have hLS : ("Low Risk" : String) ≠ "Safe" := by decide
  refine ⟨fun c => ?_, fun c => ?_, fun c => ?_, fun c => ?_, ?_, ?_, ?_⟩
  · unfold processImagesRiskLevel
    split_ifs with h1 h2 h3
    · exact ⟨fun _ => h1, fun _ => rfl⟩
    · exact ⟨fun he => absurd he.symm hHM, fun hc => absurd hc h1⟩
    · exact ⟨fun he => absurd he.symm hHL, fun hc => absurd hc h1⟩
    · exact ⟨fun he => absurd he.symm hHS, fun hc => absurd hc h1⟩
  · unfold processImagesRiskLevel
    split_ifs with h1 h2 h3
    · exact ⟨fun he => absurd he hHM, fun hc => absurd h1 (not_lt.mpr hc.2)⟩
    · exact ⟨fun _ => ⟨h2, not_lt.mp h1⟩, fun _ => rfl⟩
    · exact ⟨fun he => absurd he.symm hML, fun hc => absurd hc.1 h2⟩
    · exact ⟨fun he => absurd he.symm hMS, fun hc => absurd hc.1 h2⟩
  · unfold processImagesRiskLevel
    split_ifs with h1 h2 h3
    · exact ⟨fun he => absurd he hHL, fun hc => absurd h1 (by linarith [hc.2])⟩
    · exact ⟨fun he => absurd he hML, fun hc => absurd h2 (not_lt.mpr hc.2)⟩
    · exact ⟨fun _ => ⟨h3, not_lt.mp h2⟩, fun _ => rfl⟩
    · exact ⟨fun he => absurd he.symm hLS, fun hc => absurd hc.1 h3⟩
  · unfold processImagesRiskLevel
    split_ifs with h1 h2 h3
    · exact ⟨fun he => absurd he hHS, fun hc => absurd h1 (by linarith)⟩
    · exact ⟨fun he => absurd he hMS, fun hc => absurd h2 (by linarith)⟩
    · exact ⟨fun he => absurd he hLS, fun hc => absurd h3 (not_lt.mpr hc)⟩
    · exact ⟨fun _ => not_lt.mp h3, fun _ => rfl⟩
  · unfold processImagesRiskLevel
    norm_num
  · unfold processImagesRiskLevel
    norm_num
  · unfold processImagesRiskLevel
    norm_num

theorem riskLevel_tiers_witness :
    processImagesRiskLevel 3 = "High Risk" ∧ (2 : ℚ) < 3 :=
  ⟨(riskLevel_tiers.1 3).mpr (by norm_num), by norm_num⟩

/-- C3: the risk classification is monotone in the coverage percentage:
increasing coverage never decreases the assigned tier in the order
Safe < Low < Medium < High. -/
theorem riskLevel_monotone (a b : ℚ) (hab : a ≤ b) :
    tierRank (processImagesRiskLevel a) ≤ tierRank (processImagesRiskLevel b) := by
  unfold processImagesRiskLevel
  split_ifs <;> first | decide | linarith

theorem riskLevel_monotone_witness :
    (1 : ℚ) ≤ 3 ∧ tierRank (processImagesRiskLevel 1) ≤ tierRank (processImagesRiskLevel 3) :=
  ⟨by norm_num, riskLevel_monotone 1 3 (by norm_num)⟩

/-- C4: the risk classification of the mock path and of the real-API path
are extensionally the same function of the coverage percentage. -/
theorem riskLevel_paths_agree :
    ∀ c : ℚ, simulateRiskLevel c = processImagesRiskLevel c := by
  intro c
  rfl

theorem alphaAt_eq (nd : ℚ) :
    alphaAt nd = if nd < 1/4 then 7/10 - nd * (4/5) else 13/20 - nd * (3/5) := by
  unfold alphaAt gradColor
  split_ifs with h1 h2 h3 <;> dsimp only <;> ring

theorem gradColor_zero : gradColor 0 = ⟨255, 0, 0, 7/10⟩ := by
  unfold gradColor
  norm_num

/-- C5: the normalized distance is `min(distance / 80, 1)` and lies in
[0, 1] for every pixel of the transform; the gradient maps normalized
distance 0 to deep red (255, 0, 0); throughout the red/orange/yellow bands
(normalized distance below 0.5) the red channel is 255 and the blue
channel 0; and from normalized distance 0.5 on (the yellow-to-green
bands) the green channel is 255. -/
theorem gradient_bands (ov : ℕ → ℕ → RGB) (w h x y : ℕ)
    (hx : x < w) (hy : y < h) :
    normDist (distanceMap ov w h x y) = min (distanceMap ov w h x y / 80) 1 ∧
    0 ≤ normDist (distanceMap ov w h x y) ∧
    normDist (distanceMap ov w h x y) ≤ 1 ∧
    (gradColor 0).r = 255 ∧ (gradColor 0).g = 0 ∧ (gradColor 0).b = 0 ∧
    (∀ nd : ℚ, nd < 1/2 → (gradColor nd).r = 255 ∧ (gradColor nd).b = 0) ∧
    (∀ nd : ℚ, 1/2 ≤ nd → (gradColor nd).g = 255) := by
  have hd := (distanceMap_inv ov w h x y hx hy).1
  refine ⟨rfl, le_min (div_nonneg hd (by norm_num [maxDist])) (by norm_num),
    min_le_right _ _,
    by rw [gradColor_zero], by rw [gradColor_zero], by rw [gradColor_zero],
    fun nd hnd => ?_, fun nd hnd => ?_⟩
  · by_cases ha : nd < 1/4
    · unfold gradColor
      rw [if_pos ha]
      exact ⟨rfl, rfl⟩
    · unfold gradColor
      rw [if_neg ha, if_pos hnd]
      exact ⟨rfl, rfl⟩
  · have h4 : ¬ nd < 1/4 := by linarith
    have h2 : ¬ nd < 1/2 := by linarith
    by_cases hc : nd < 3/4
    · unfold gradColor
      rw [if_neg h4, if_neg h2, if_pos hc]
    · unfold gradColor
      rw [if_neg h4, if_neg h2, if_neg hc]

theorem gradient_bands_witness :
    normDist (distanceMap cexOverlay 2 2 0 0) =
      min (distanceMap cexOverlay 2 2 0 0 / 80) 1 ∧
    0 ≤ normDist (distanceMap cexOverlay 2 2 0 0) ∧
    normDist (distanceMap cexOverlay 2 2 0 0) ≤ 1 ∧
    (gradColor 0).r = 255 ∧ (gradColor 0).g = 0 ∧ (gradColor 0).b = 0 ∧
    (∀ nd : ℚ, nd < 1/2 → (gradColor nd).r = 255 ∧ (gradColor nd).b = 0) ∧
    (∀ nd : ℚ, 1/2 ≤ nd → (gradColor nd).g = 255) :=
  gradient_bands cexOverlay 2 2 0 0 (by decide) (by decide)

/-- C6: on [0, 1] the blending alpha is monotonically non-increasing in the
normalized distance, attains its maximum 0.7 at 0 and its minimum 0.05 at
1, and is strictly positive everywhere, so every heatmap pixel is blended
with nonzero opacity. -/
theorem alpha_falloff :
    (∀ a b : ℚ, 0 ≤ a → a ≤ b → b ≤ 1 → alphaAt b ≤ alphaAt a) ∧
    alphaAt 0 = 7/10 ∧ alphaAt 1 = 1/20 ∧
    (∀ t : ℚ, 0 ≤ t → t ≤ 1 → 1/20 ≤ alphaAt t ∧ alphaAt t ≤ 7/10) ∧
    (∀ t : ℚ, 0 ≤ t → t ≤ 1 → 0 < alphaAt t) := by
  refine ⟨fun a b ha hab hb1 => ?_, ?_, ?_,
    fun t ht ht1 => ⟨?_, ?_⟩, fun t ht ht1 => ?_⟩
  · rw [alphaAt_eq a, alphaAt_eq b]
    split_ifs with h1 h2 h2 <;> linarith
  · rw [alphaAt_eq]; norm_num
  · rw [alphaAt_eq]; norm_num
  · rw [alphaAt_eq]; split_ifs with hc <;> linarith
  · rw [alphaAt_eq]; split_ifs with hc <;> linarith
  · rw [alphaAt_eq]; split_ifs with hc <;> linarith

theorem alpha_falloff_witness :
    (0 : ℚ) ≤ 0 ∧ (0 : ℚ) ≤ 1 ∧ (1 : ℚ) ≤ 1 ∧
    alphaAt 1 ≤ alphaAt 0 ∧ 0 < alphaAt (1/2) :=
  ⟨le_refl 0, by norm_num, le_refl 1,
    alpha_falloff.1 0 1 (le_refl 0) (by norm_num) (le_refl 1),
    alpha_falloff.2.2.2.2 (1/2) (by norm_num) (by norm_num)⟩

/-- C8: the deterministic parts of the pipeline are pure functions of their
inputs: on equal overlays, originals and coverage values, the full heatmap
computation (distance transform, normalization, gradient, alpha blend)
and the risk classification produce equal outputs. -/
theorem pipeline_deterministic (ov ov' base base' : ℕ → ℕ → RGB)
    (w h x y : ℕ) (c c' : ℚ)
    (hov : ov = ov') (hbase : base = base') (hc : c = c') :
    heatmapPixel ov base w h x y = heatmapPixel ov' base' w h x y ∧
    processImagesRiskLevel c = processImagesRiskLevel c' := by
  subst hov
  subst hbase
  subst hc
  exact ⟨rfl, rfl⟩

theorem pipeline_deterministic_witness :
    heatmapPixel cexOverlay cexOverlay 2 2 0 0 =
      heatmapPixel cexOverlay cexOverlay 2 2 0 0 ∧
    processImagesRiskLevel 3 = processImagesRiskLevel 3 :=
  pipeline_deterministic cexOverlay cexOverlay cexOverlay cexOverlay
    2 2 0 0 3 3 rfl rfl rfl

/-! ### Batch loop lemmas -/

theorem setStatus_head_id (im : UImage) (i : ℕ) (s : ImgStatus) :
    (if im.id = i then { im with status := s } else im).id = im.id := by
  by_cases h : im.id = i <;> simp [h]

theorem statusOf_cons (a : UImage) (l : List UImage) (j : ℕ) :
    statusOf (a :: l) j = if a.id = j then some a.status else statusOf l j := by
  by_cases h : a.id = j <;> simp [statusOf, List.find?, h]

theorem statusOf_setStatus_ne (l : List UImage) (i j : ℕ) (s : ImgStatus)
    (hij : j ≠ i) : statusOf (setStatus l i s) j = statusOf l j := by
  induction l with
  | nil => rfl
  | cons im t ih =>
    simp only [setStatus, List.map_cons]
    rw [statusOf_cons, statusOf_cons, setStatus_head_id]
    by_cases hj : im.id = j
    · have him : im.id ≠ i := fun hc => hij (hj.symm.trans hc)
      rw [if_pos hj, if_pos hj, if_neg him]
    · rw [if_neg hj, if_neg hj]
      exact ih

theorem statusOf_setStatus_eq (l : List UImage) (i : ℕ) (s : ImgStatus) :
    statusOf (setStatus l i s) i = (statusOf l i).map fun _ => s := by
  induction l with
  | nil => rfl
  | cons im t ih =>
    simp only [setStatus, List.map_cons]
    rw [statusOf_cons, statusOf_cons, setStatus_head_id]
    by_cases hj : im.id = i
    · rw [if_pos hj, if_pos hj]
      simp [hj]
    · rw [if_neg hj, if_neg hj]
      exact ih

theorem setStatus_ids (l : List UImage) (i : ℕ) (s : ImgStatus) :
    (setStatus l i s).map UImage.id = l.map UImage.id := by
  induction l with
  | nil => rfl
  | cons im t ih =>
    simp only [setStatus, List.map_cons] at ih ⊢
    rw [setStatus_head_id, ih]

theorem statusOf_isSome_of_mem (l : List UImage) (j : ℕ)
    (hmem : j ∈ l.map UImage.id) : (statusOf l j).isSome = true := by
  induction l with
  | nil => simp at hmem
  | cons im t ih =>
    rw [statusOf_cons]
    by_cases hj : im.id = j
    · rw [if_pos hj]
      rfl
    · rw [if_neg hj]
      apply ih
      simp only [List.map_cons, List.mem_cons] at hmem
      rcases hmem with hc | hc
      · exact absurd hc.symm hj
      · exact hc

theorem processImages_results {ρ : Type*} (stepF : UImage → Except String ρ)
    (l : List UImage) (acc : List ρ × List UImage) :
    (l.foldl (processOne stepF) acc).1
      = acc.1 ++ l.filterMap (fun im => (stepF im).toOption) := by
  induction l generalizing acc with
  | nil => simp
  | cons b t ih =>
    rw [List.foldl_cons, ih]
    cases hb : stepF b <;>
      simp [processOne, hb, List.filterMap_cons, Except.toOption]

theorem processImages_ids {ρ : Type*} (stepF : UImage → Except String ρ)
    (l : List UImage) (acc : List ρ × List UImage) :
    (l.foldl (processOne stepF) acc).2.map UImage.id = acc.2.map UImage.id := by
  induction l generalizing acc with
  | nil => rfl
  | cons b t ih =>
    rw [List.foldl_cons, ih]
    cases hb : stepF b <;> simp [processOne, hb, setStatus_ids]

theorem processImages_keeps_error {ρ : Type*} (stepF : UImage → Except String ρ)
    (t : List UImage) (acc : List ρ × List UImage) (j : ℕ)
    (hnot : j ∉ t.map UImage.id)
    (hst : statusOf acc.2 j = some ImgStatus.error) :
    statusOf (t.foldl (processOne stepF) acc).2 j = some ImgStatus.error := by
  induction t generalizing acc with
  | nil => exact hst
  | cons b r ih =>
    have hbj : j ≠ b.id := by
      simp only [List.map_cons, List.mem_cons] at hnot
      exact fun hc => hnot (Or.inl hc)
    rw [List.foldl_cons]
    apply ih
    · intro hc
      simp only [List.map_cons, List.mem_cons] at hnot
      exact hnot (Or.inr hc)
    · cases hb : stepF b
      · simp only [processOne, hb]
        rw [statusOf_setStatus_ne _ _ _ _ hbj, statusOf_setStatus_ne _ _ _ _ hbj]
        exact hst
      · simp only [processOne, hb]
        rw [statusOf_setStatus_ne _ _ _ _ hbj]
        exact hst

/-- C7: in the batch loop of `processImages`, a thrown error while
processing one ready image is caught inside the loop and only marks that
image status as `error`; the results array equals the in-order successful
outcomes of all ready images, so every other image in the batch is still
processed and reported individually. -/
theorem processImages_partial_failure {ρ : Type*}
    (stepF : UImage → Except String ρ) (images : List UImage) (im : UImage)
    (e : String)
    (hnd : ((readyImages images).map UImage.id).Nodup)
    (him : im ∈ readyImages images) (hfail : stepF im = Except.error e) :
    (processImages stepF images).1
      = (readyImages images).filterMap (fun i => (stepF i).toOption) ∧
    statusOf (processImages stepF images).2 im.id = some ImgStatus.error := by
  constructor
  · unfold processImages
    rw [processImages_results]
    simp
  · obtain ⟨l1, l2, hsplit⟩ := List.append_of_mem him
    unfold processImages
    rw [hsplit, List.foldl_append, List.foldl_cons]
    have hsome : (statusOf (l1.foldl (processOne stepF) ([], images)).2
        im.id).isSome = true := by
      apply statusOf_isSome_of_mem
      rw [processImages_ids]
      exact List.mem_map_of_mem _ (List.mem_of_mem_filter him)
    have herr : statusOf (processOne stepF
        (l1.foldl (processOne stepF) ([], images)) im).2 im.id
        = some ImgStatus.error := by
      simp only [processOne, hfail]
      rw [statusOf_setStatus_eq, statusOf_setStatus_eq]
      obtain ⟨st, hstv⟩ := Option.isSome_iff_exists.mp hsome
      rw [hstv]
      rfl
    have hnot : im.id ∉ l2.map UImage.id := by
      rw [hsplit, List.map_append, List.map_cons] at hnd
      exact (List.nodup_cons.mp (List.nodup_append.mp hnd).2.1).1
    exact processImages_keeps_error stepF l2 _ im.id hnot herr

theorem processImages_partial_failure_witness :
    (processImages wStep wImgs).1
      = (readyImages wImgs).filterMap (fun i => (wStep i).toOption) ∧
    statusOf (processImages wStep wImgs).2 1 = some ImgStatus.error :=
  processImages_partial_failure wStep wImgs ⟨1, ImgStatus.ready⟩ "decode failure"
    (by decide) (by decide) rfl

/-- C9: `TwoFactorService.verifyCode` resolves with `isValid` equal to the
pure six-decimal-digit format test on the code: every six-digit code is
accepted for every email (the hard-coded list of valid codes never affects
the outcome) and every other code is rejected. -/
theorem verifyCode_format_only (email code : String) (isSetup : Bool) :
    (verifyCode email code isSetup).isValid = regexSixDigits code := by
  cases hreg : regexSixDigits code
  · simp [verifyCode, hreg]
  · have hconj : code.length = 6 ∧ code.toList.all Char.isDigit = true := by
      have hr := hreg
      simp only [regexSixDigits, Bool.and_eq_true, beq_iff_eq] at hr
      exact hr
    simp [verifyCode, hreg, regexOneOrMoreDigits, hconj.1, hconj.2]
    exact Or.inr (by simpa using hconj.2)

theorem verifyCode_format_only_witness :
    (verifyCode "user@example.com" "999999" false).isValid
      = regexSixDigits "999999" :=
  verifyCode_format_only "user@example.com" "999999" false

/-- C10: `SegmentationService.segmentImage` never rejects: it is a total
function of the fetch outcome; on the successful path (ok response, parsed
body, nonempty results) it returns the first element of the results array,
and on every other path (network failure, non-ok response, parse failure,
empty results) it returns a result carrying the input file name, an
`error` status and an error message. -/
theorem segmentImage_total (filename : String) (outcome : FetchOutcome) :
    (∀ r, successBody outcome = some r → segmentImage filename outcome = r) ∧
    (successBody outcome = none →
      (segmentImage filename outcome).filename = filename ∧
      (segmentImage filename outcome).status = ResStatus.error ∧
      (segmentImage filename outcome).error.isSome = true) := by
  cases outcome with
  | networkError msg =>
    exact ⟨fun r hr => by simp [successBody] at hr, fun _ => ⟨rfl, rfl, rfl⟩⟩
  | response ok st body =>
    cases ok
    · exact ⟨fun r hr => by simp [successBody] at hr, fun _ => ⟨rfl, rfl, rfl⟩⟩
    · cases body with
      | error msg =>
        exact ⟨fun r hr => by simp [successBody] at hr, fun _ => ⟨rfl, rfl, rfl⟩⟩
      | ok data =>
        cases hres : data.results with
        | nil =>
          constructor
          · intro r hr
            simp [successBody, hres] at hr
          · intro _
            simp [segmentImage, hres, catchResult]
        | cons r rest =>
          constructor
          · intro r' hr'
            simp only [successBody, hres, List.head?, Option.some.injEq] at hr'
            simp [segmentImage, hres, hr']
          · intro hnone
            simp [successBody, hres] at hnone

theorem segmentImage_total_witness :
    (segmentImage "scan.png" (FetchOutcome.networkError "Failed to fetch")).filename
      = "scan.png" ∧
    (segmentImage "scan.png" (FetchOutcome.networkError "Failed to fetch")).status
      = ResStatus.error ∧
    (segmentImage "scan.png"
      (FetchOutcome.networkError "Failed to fetch")).error.isSome = true :=
  (segmentImage_total "scan.png" (FetchOutcome.networkError "Failed to fetch")).2 rfl

end Colovision
